import Mathlib

/-!
Shallow embedding of the Bessel module `src/math/bessel.rs` of the scilib crate.

Modelling conventions:

* Rust `Complex` values are modelled by `ℂ` and `f64` scalars by `ℝ`:
  the arithmetic is the exact (real) idealisation of the floating-point
  arithmetic of the source.  The external complex primitive (an out-of-scope
  collaborator per the spec) supplies `powi` (integer power, modelled by
  monoid powers on `ℂ`), `powf` (real power, modelled by the complex power
  `x ^ (r : ℂ)`), `modulus` (modelled by `Complex.abs`) and the imaginary
  unit (`Complex.I`).
* The unbounded `'convergence: loop` of the source is modelled with an
  explicit fuel parameter counting loop iterations; a computation that does
  not reach its convergence break within the fuel returns `none`.  All
  structural claims are stated uniformly in the fuel.
* The integer order of `j` (an `i32` in the source) is modelled by `ℤ`;
  claims carry the `i32` range bounds they mention.
-/

namespace Bessel

/-- Precision limit for Bessel computation: the source constant
`PRECISION_CONVERGENCE: f64 = 1.0e-8`. -/
noncomputable def PRECISION_CONVERGENCE : ℝ := 1.0e-8

/-- Limit offset when computing Bessel Y: the source constant
`DISTANCE_Y_LIM: f64 = 0.001`. -/
noncomputable def DISTANCE_Y_LIM : ℝ := 0.001

/-- The source uses `std::f64::consts::PI`; modelled by the real π. -/
noncomputable def PI : ℝ := Real.pi

/-- The source uses `std::f64::consts::FRAC_PI_2`; modelled by π / 2. -/
noncomputable def FRAC_PI_2 : ℝ := Real.pi / 2

/-- Rust `f64::trunc` (rounding toward zero), landing in `ℤ`.  This is the
integer part used by `f64::fract` and by `as i32` casts. -/
noncomputable def rustTrunc (r : ℝ) : ℤ :=
  if 0 ≤ r then ⌊r⌋ else ⌈r⌉

/-- Rust `f64::fract`: `self - self.trunc()`.  The source branches on
`n.fract() == 0.0`. -/
noncomputable def fract (r : ℝ) : ℝ :=
  r - (rustTrunc r : ℝ)

/-- Rust `as i32` cast from `f64`: truncate toward zero, saturating at the
`i32` bounds (Rust float-to-int `as` casts saturate). -/
noncomputable def f64toI32 (r : ℝ) : ℤ :=
  max (-(2 ^ 31)) (min (2 ^ 31 - 1) (rustTrunc r))

theorem rustTrunc_intCast (m : ℤ) : rustTrunc (m : ℝ) = m := by
  unfold rustTrunc
  split_ifs <;> simp

theorem fract_eq_zero_iff (r : ℝ) : fract r = 0 ↔ ∃ m : ℤ, r = (m : ℝ) := by
  unfold fract
  rw [sub_eq_zero]
  constructor
  · intro h
    exact ⟨rustTrunc r, h⟩
  · rintro ⟨m, rfl⟩
    rw [rustTrunc_intCast]

theorem fract_intCast (m : ℤ) : fract (m : ℝ) = 0 :=
  (fract_eq_zero_iff _).mpr ⟨m, rfl⟩

theorem fract_zero : fract (0 : ℝ) = 0 := by
  have h := fract_intCast 0
  simpa using h

/-- No integer equals a real strictly between 0 and 1. -/
theorem int_cast_ne_of_unit (z : ℤ) (r : ℝ) (h0 : 0 < r) (h1 : r < 1) :
    (z : ℝ) ≠ r := by
  intro h
  rcases le_or_lt z 0 with hz | hz
  · have : (z : ℝ) ≤ 0 := by exact_mod_cast hz
    linarith
  · have : (1 : ℝ) ≤ (z : ℝ) := by exact_mod_cast hz
    linarith

/-- The fractional part of a real strictly between 0 and 1 is nonzero. -/
theorem fract_ne_zero_of_unit (r : ℝ) (h0 : 0 < r) (h1 : r < 1) :
    fract r ≠ 0 := by
  intro hc
  rw [fract_eq_zero_iff] at hc
  obtain ⟨m, rfl⟩ := hc
  exact int_cast_ne_of_unit m _ h0 h1 rfl

theorem fract_neg_eq_zero_iff (r : ℝ) : fract (-r) = 0 ↔ fract r = 0 := by
  rw [fract_eq_zero_iff, fract_eq_zero_iff]
  constructor
  · rintro ⟨m, hm⟩
    exact ⟨-m, by push_cast; linarith⟩
  · rintro ⟨m, rfl⟩
    exact ⟨-m, by push_cast; ring⟩

theorem dylim_eq : DISTANCE_Y_LIM = 1 / 1000 := by
  norm_num [DISTANCE_Y_LIM]

/-- Shifting an integer-valued order by the Y limit offset leaves the
integer grid: the shifted order has nonzero fractional part. -/
theorem fract_add_dylim_ne (n : ℝ) (h : fract n = 0) :
    fract (n + DISTANCE_Y_LIM) ≠ 0 := by
  rw [fract_eq_zero_iff] at h
  intro hc
  rw [fract_eq_zero_iff] at hc
  obtain ⟨b, hb⟩ := hc
  obtain ⟨a, rfl⟩ := h
  rw [dylim_eq] at hb
  have hba : ((b - a : ℤ) : ℝ) = 1 / 1000 := by push_cast; linarith
  exact int_cast_ne_of_unit (b - a) (1 / 1000) (by norm_num) (by norm_num) hba

/-- Same statement for the downward shift `n - DISTANCE_Y_LIM`. -/
theorem fract_sub_dylim_ne (n : ℝ) (h : fract n = 0) :
    fract (n - DISTANCE_Y_LIM) ≠ 0 := by
  rw [fract_eq_zero_iff] at h
  intro hc
  rw [fract_eq_zero_iff] at hc
  obtain ⟨b, hb⟩ := hc
  obtain ⟨a, rfl⟩ := h
  rw [dylim_eq] at hb
  have hba : ((a - b : ℤ) : ℝ) = 1 / 1000 := by push_cast; linarith
  exact int_cast_ne_of_unit (a - b) (1 / 1000) (by norm_num) (by norm_num) hba

/-- The `'convergence: loop` of the integer-order `j` evaluator.  State:
iteration counter `kk`, the two denominator accumulators `d1` (tracking
`k!`) and `d2` (tracking `(np+k)!`), the sign `sg`, the current `term` and
the running sum `res`, exactly as in the source.  `fuel` bounds the number
of iterations; exhausting it yields `none`. -/
noncomputable def jLoop (x2 : ℂ) (np : ℕ) :
    ℕ → ℕ → ℝ → ℝ → ℝ → ℂ → ℂ → Option ℂ
  | 0, _, _, _, _, _, _ => none
  | fuel + 1, kk, d1, d2, sg, term, res =>
      let res' := res + term
      if |Complex.abs (term / res')| < PRECISION_CONVERGENCE then
        some res'
      else
        let kk' := kk + 1
        let sg' := -sg
        let d1' := d1 * (kk' : ℝ)
        let d2' := d2 * ((np + kk' : ℕ) : ℝ)
        jLoop x2 np fuel kk' d1' d2' sg'
          ((sg' : ℂ) * x2 ^ (np + 2 * kk') / ((d1' * d2' : ℝ) : ℂ)) res'

/-- `pub fn j<T: Into<Complex>>(x: T, n: i32) -> Complex`: the J Bessel
function of integer order, by factorial-denominator series.  `np = |n|`,
`x2 = x / 2`, the seed term is `x2^np / np!`; if its modulus is below
`PRECISION_CONVERGENCE` the additive identity is returned at once,
otherwise the convergence loop runs and, for negative `n`, the result is
multiplied by `(-1)^np`. -/
noncomputable def j (fuel : ℕ) (x : ℂ) (n : ℤ) : Option ℂ :=
  let np : ℕ := n.natAbs
  let x2 : ℂ := x / 2
  let d2 : ℝ := (Nat.factorial np : ℝ)
  let term : ℂ := x2 ^ np / (d2 : ℂ)
  let res : ℂ := 0
  if Complex.abs term < PRECISION_CONVERGENCE then
    some res
  else
    (jLoop x2 np fuel 0 1 d2 1 term res).map
      (fun r => if n < 0 then ((((-1 : ℝ)) ^ np : ℝ) : ℂ) * r else r)

/-- The `'convergence: loop` of the real-order `jf` evaluator.  Same state
as `jLoop`, except that the order `n` is real, the exponents are real
powers, and the second denominator accumulator follows the gamma recurrence
`d2 *= n + k`.  The source keeps the counter `k` in an `f64`; it only ever
holds the naturals `0, 1, 2, …`, modelled by a `ℕ` cast into `ℝ`. -/
noncomputable def jfLoop (x2 : ℂ) (n : ℝ) :
    ℕ → ℕ → ℝ → ℝ → ℝ → ℂ → ℂ → Option ℂ
  | 0, _, _, _, _, _, _ => none
  | fuel + 1, kk, d1, d2, sg, term, res =>
      let res' := res + term
      if |Complex.abs (term / res')| < PRECISION_CONVERGENCE then
        some res'
      else
        let kk' := kk + 1
        let sg' := -sg
        let d1' := d1 * (kk' : ℝ)
        let d2' := d2 * (n + (kk' : ℝ))
        jfLoop x2 n fuel kk' d1' d2' sg'
          ((sg' : ℂ) * x2 ^ (((n + 2 * (kk' : ℝ)) : ℝ) : ℂ) / ((d1' * d2' : ℝ) : ℂ)) res'

/-- `pub fn jf<T, U>(x: T, order: U) -> Complex`: the J Bessel function of
real order.  If the order's fractional part is exactly zero it falls back
on the integer-order evaluator `j` (with the `as i32` saturating cast);
otherwise it runs the gamma-denominator series with seed
`x2^n / gamma(n+1)` and the same early exit and convergence loop as `j`. -/
noncomputable def jf (fuel : ℕ) (x : ℂ) (order : ℝ) : Option ℂ :=
  let n : ℝ := order
  if fract n = 0 then
    j fuel x (f64toI32 n)
  else
    let x2 : ℂ := x / 2
    let d2 : ℝ := Real.Gamma (n + 1)
    let term : ℂ := x2 ^ ((n : ℝ) : ℂ) / (d2 : ℂ)
    let res : ℂ := 0
    if |Complex.abs term| < PRECISION_CONVERGENCE then
      some res
    else
      jfLoop x2 n fuel 0 1 d2 1 term res

/-- The `'convergence: loop` of the modified Bessel `i` evaluator: identical
to `jfLoop` with the alternating sign absent. -/
noncomputable def iLoop (x2 : ℂ) (n : ℝ) :
    ℕ → ℕ → ℝ → ℝ → ℂ → ℂ → Option ℂ
  | 0, _, _, _, _, _ => none
  | fuel + 1, kk, d1, d2, term, res =>
      let res' := res + term
      if |Complex.abs (term / res')| < PRECISION_CONVERGENCE then
        some res'
      else
        let kk' := kk + 1
        let d1' := d1 * (kk' : ℝ)
        let d2' := d2 * (n + (kk' : ℝ))
        iLoop x2 n fuel kk' d1' d2'
          (x2 ^ (((n + 2 * (kk' : ℝ)) : ℝ) : ℂ) / ((d1' * d2' : ℝ) : ℂ)) res'

/-- `pub fn i<T, U>(x: T, order: U) -> Complex`: the modified Bessel
function of the first kind.  The gamma-denominator series of `jf` without
the alternating sign and without any integer-order branch: every order,
integer-valued ones included, goes through `Real.Gamma (n + 1)`. -/
noncomputable def i (fuel : ℕ) (x : ℂ) (order : ℝ) : Option ℂ :=
  let n : ℝ := order
  let x2 : ℂ := x / 2
  let d2 : ℝ := Real.Gamma (n + 1)
  let term : ℂ := x2 ^ ((n : ℝ) : ℂ) / (d2 : ℂ)
  let res : ℂ := 0
  if |Complex.abs term| < PRECISION_CONVERGENCE then
    some res
  else
    iLoop x2 n fuel 0 1 d2 term res

/-- `pub fn y<T, U>(x: T, order: U) -> Complex`: the Y Bessel function.
For an order with zero fractional part the function calls itself at the
orders `n ± DISTANCE_Y_LIM` and averages; otherwise it applies the
reflection formula `(cos(nπ)·jf(x,n) − jf(x,−n)) / sin(nπ)`.  The
recursion is well-founded because the shifted orders leave the integer
grid (`fract_add_dylim_ne` / `fract_sub_dylim_ne`). -/
noncomputable def y (fuel : ℕ) (x : ℂ) (order : ℝ) : Option ℂ :=
  let n : ℝ := order
  if h : fract n = 0 then
    (y fuel x (n + DISTANCE_Y_LIM)).bind fun a =>
      (y fuel x (n - DISTANCE_Y_LIM)).bind fun b =>
        some ((a + b) / 2)
  else
    (jf fuel x n).bind fun a =>
      (jf fuel x (-n)).bind fun b =>
        some ((((Real.cos (n * PI) : ℝ) : ℂ) * a - b) / ((Real.sin (n * PI) : ℝ) : ℂ))
termination_by (if fract order = 0 then 1 else 0 : ℕ)
decreasing_by
  · simp only [h, if_pos, fract_add_dylim_ne _ h, if_neg]
    exact Nat.zero_lt_one
  · simp only [h, if_pos, fract_sub_dylim_ne _ h, if_neg]
    exact Nat.zero_lt_one

/-- `pub fn k<T, U>(x: T, order: U) -> Complex`: the K modified Bessel
function.  Same two-branch shape as `y`, substituting `i` for `jf`:
integer-valued orders average the two calls at `n ± DISTANCE_Y_LIM`,
other orders use `(π/2 / sin(nπ)) · (i(x,−n) − i(x,n))`. -/
noncomputable def k (fuel : ℕ) (x : ℂ) (order : ℝ) : Option ℂ :=
  let n : ℝ := order
  if h : fract n = 0 then
    (k fuel x (n + DISTANCE_Y_LIM)).bind fun a =>
      (k fuel x (n - DISTANCE_Y_LIM)).bind fun b =>
        some ((a + b) / 2)
  else
    (i fuel x (-n)).bind fun a =>
      (i fuel x n).bind fun b =>
        some (((FRAC_PI_2 / Real.sin (n * PI) : ℝ) : ℂ) * (a - b))
termination_by (if fract order = 0 then 1 else 0 : ℕ)
decreasing_by
  · simp only [h, if_pos, fract_add_dylim_ne _ h, if_neg]
    exact Nat.zero_lt_one
  · simp only [h, if_pos, fract_sub_dylim_ne _ h, if_neg]
    exact Nat.zero_lt_one

/-- `pub fn hankel_first<T, U>(x: T, order: U) -> Complex`: the first
Hankel function, `jf(x,n) + i·y(x,n)` with `i` the imaginary unit. -/
noncomputable def hankel_first (fuel : ℕ) (x : ℂ) (order : ℝ) : Option ℂ :=
  let n : ℝ := order
  (jf fuel x n).bind fun res_j =>
    (y fuel x n).bind fun res_y =>
      some (res_j + Complex.I * res_y)

/-- `pub fn hankel_second<T, U>(x: T, order: U) -> Complex`: the second
Hankel function, `jf(x,n) − i·y(x,n)`. -/
noncomputable def hankel_second (fuel : ℕ) (x : ℂ) (order : ℝ) : Option ℂ :=
  let n : ℝ := order
  (jf fuel x n).bind fun res_j =>
    (y fuel x n).bind fun res_y =>
      some (res_j - Complex.I * res_y)

/-! Branch-unfolding lemmas for the two recursively defined derivations. -/

theorem y_int_branch (fuel : ℕ) (x : ℂ) (n : ℝ) (h : fract n = 0) :
    y fuel x n =
      (y fuel x (n + DISTANCE_Y_LIM)).bind fun a =>
        (y fuel x (n - DISTANCE_Y_LIM)).bind fun b =>
          some ((a + b) / 2) := by
  rw [y.eq_def, dif_pos h]

theorem y_frac_branch (fuel : ℕ) (x : ℂ) (n : ℝ) (h : fract n ≠ 0) :
    y fuel x n =
      (jf fuel x n).bind fun a =>
        (jf fuel x (-n)).bind fun b =>
          some ((((Real.cos (n * PI) : ℝ) : ℂ) * a - b) /
            ((Real.sin (n * PI) : ℝ) : ℂ)) := by
  rw [y.eq_def, dif_neg h]

theorem k_int_branch (fuel : ℕ) (x : ℂ) (n : ℝ) (h : fract n = 0) :
    k fuel x n =
      (k fuel x (n + DISTANCE_Y_LIM)).bind fun a =>
        (k fuel x (n - DISTANCE_Y_LIM)).bind fun b =>
          some ((a + b) / 2) := by
  rw [k.eq_def, dif_pos h]

theorem k_frac_branch (fuel : ℕ) (x : ℂ) (n : ℝ) (h : fract n ≠ 0) :
    k fuel x n =
      (i fuel x (-n)).bind fun a =>
        (i fuel x n).bind fun b =>
          some (((FRAC_PI_2 / Real.sin (n * PI) : ℝ) : ℂ) * (a - b)) := by
  rw [k.eq_def, dif_neg h]

/-! Evaluation of the embedded functions at the origin; these concrete runs
feed the witnesses below. -/

theorem j_zero_of_ne (fuel : ℕ) (n : ℤ) (h : n ≠ 0) : j fuel 0 n = some 0 := by
  unfold j
  have hnp : n.natAbs ≠ 0 := Int.natAbs_ne_zero.mpr h
  rw [if_pos]
  simp [zero_pow hnp, PRECISION_CONVERGENCE]
  norm_num

theorem j_zero_zero (fuel : ℕ) : j (fuel + 2) 0 0 = some 1 := by
  show j (fuel + 1 + 1) 0 0 = some 1
  unfold j jLoop
  norm_num [PRECISION_CONVERGENCE]
  unfold jLoop
  norm_num [PRECISION_CONVERGENCE]

theorem jf_zero_of (fuel : ℕ) (r : ℝ) (h1 : fract r ≠ 0) (h2 : r ≠ 0) :
    jf fuel 0 r = some 0 := by
  unfold jf
  rw [if_neg h1]
  have hr : ((r : ℝ) : ℂ) ≠ 0 := Complex.ofReal_ne_zero.mpr h2
  rw [if_pos]
  simp [Complex.zero_cpow hr, PRECISION_CONVERGENCE]
  norm_num

theorem i_zero_of (fuel : ℕ) (r : ℝ) (h2 : r ≠ 0) : i fuel 0 r = some 0 := by
  unfold i
  have hr : ((r : ℝ) : ℂ) ≠ 0 := Complex.ofReal_ne_zero.mpr h2
  rw [if_pos]
  simp [Complex.zero_cpow hr, PRECISION_CONVERGENCE]
  norm_num

theorem y_zero_of (fuel : ℕ) (r : ℝ) (h1 : fract r ≠ 0) (h2 : r ≠ 0) :
    y fuel 0 r = some 0 := by
  rw [y_frac_branch fuel 0 r h1]
  have h1' : fract (-r) ≠ 0 := fun hc => h1 ((fract_neg_eq_zero_iff r).mp hc)
  rw [jf_zero_of fuel r h1 h2, jf_zero_of fuel (-r) h1' (neg_ne_zero.mpr h2)]
  simp

theorem k_zero_of (fuel : ℕ) (r : ℝ) (h1 : fract r ≠ 0) (h2 : r ≠ 0) :
    k fuel 0 r = some 0 := by
  rw [k_frac_branch fuel 0 r h1]
  rw [i_zero_of fuel (-r) (neg_ne_zero.mpr h2), i_zero_of fuel r h2]
  simp

/-! The claims. -/

/-- Claim C1: for every complex argument `x`, every fuel budget and every
non-negative integer order `n` in the `i32` range,
`j(x, n) = (-1)^n * j(x, -n)` with exact equality: both calls run the same
integer-order series over `|n|`, and the negative-order call only
multiplies that shared result by `(-1)^|n|`. -/
theorem j_reflection_identity (fuel : ℕ) (x : ℂ) (n : ℤ)
    (h0 : 0 ≤ n) (h1 : n < 2 ^ 31) :
    j fuel x n = Option.map (fun r => ((-1 : ℂ)) ^ n.toNat * r) (j fuel x (-n)) := by
  obtain rfl | hpos := h0.eq_or_lt
  · rw [neg_zero]
    generalize j fuel x 0 = o
    cases o <;> simp
  · have hnn : ¬ n < 0 := by omega
    have hmn : -n < 0 := by omega
    have hnat : (-n).natAbs = n.natAbs := Int.natAbs_neg n
    have ht : n.toNat = n.natAbs := by omega
    simp only [j]
    rw [hnat]
    split_ifs with hC
    · simp
    · generalize jLoop (x / 2) n.natAbs fuel 0 1 (Nat.factorial n.natAbs : ℝ) 1
        (((x / 2) ^ n.natAbs) / ((Nat.factorial n.natAbs : ℝ) : ℂ)) 0 = o
      cases o with
      | none => simp
      | some r =>
        simp only [Option.map_some, Option.map_map, if_neg hnn, if_pos hmn, ht,
          Function.comp_def]
        push_cast
        have hsq : ((-1 : ℂ)) ^ n.natAbs * (((-1 : ℂ)) ^ n.natAbs * r) = r := by
          rw [← mul_assoc, ← mul_pow]
          norm_num
        simp [hsq]

/-- Claim C7: `j(0, 0)` returns exactly the complex value `1`, and for
every nonzero integer order `n`, `j(0, n)` returns exactly the additive
identity `0`, the latter through the fast path that returns immediately
(with any fuel budget, zero included) when the seed term's magnitude is
below the convergence tolerance. -/
theorem j_zero_argument (fuel : ℕ) (n : ℤ) :
    j (fuel + 2) 0 0 = some 1 ∧ (n ≠ 0 → j fuel 0 n = some 0) := by
  exact ⟨j_zero_zero fuel, fun h => j_zero_of_ne fuel n h⟩

/-- Witness for C7 at `n = 1` with the smallest fuel budgets. -/
theorem j_zero_argument_witness : j 2 0 0 = some 1 ∧ j 0 0 1 = some 0 :=
  ⟨(j_zero_argument 0 1).1, (j_zero_argument 0 1).2 (by decide)⟩

/-- Witness for C1 at `x = 0`, `n = 1`, fuel 0. -/
theorem j_reflection_identity_witness :
    j 0 0 1 = Option.map (fun r => ((-1 : ℂ)) ^ (1 : ℤ).toNat * r) (j 0 0 (-1)) :=
  j_reflection_identity 0 0 1 (by decide) (by decide)

theorem f64toI32_intCast (m : ℤ) (hlo : -(2 ^ 31) ≤ m) (hhi : m < 2 ^ 31) :
    f64toI32 (m : ℝ) = m := by
  unfold f64toI32
  rw [rustTrunc_intCast]
  rw [min_eq_right (by omega), max_eq_right (by omega)]

/-- Claim C2: for every argument and every order whose fractional part is
exactly zero, `jf` delegates to the integer-order evaluator `j` (through
the `as i32` cast) and returns its result; in particular for every `i32`
order `n` the two code paths agree exactly, so
`|j(x,n).re − jf(x,n).re| < 1e-4`. -/
theorem jf_integer_fallback (fuel : ℕ) (x : ℂ) :
    (∀ r : ℝ, fract r = 0 → jf fuel x r = j fuel x (f64toI32 r)) ∧
    (∀ n : ℤ, -(2 ^ 31) ≤ n → n < 2 ^ 31 →
      jf fuel x (n : ℝ) = j fuel x n ∧
      ∀ a b : ℂ, jf fuel x (n : ℝ) = some a → j fuel x n = some b →
        |a.re - b.re| < 1e-4) := by
  have hdel : ∀ r : ℝ, fract r = 0 → jf fuel x r = j fuel x (f64toI32 r) := by
    intro r h
    simp only [jf]
    rw [if_pos h]
  refine ⟨hdel, fun n hlo hhi => ?_⟩
  have heq : jf fuel x (n : ℝ) = j fuel x n := by
    rw [hdel (n : ℝ) (fract_intCast n), f64toI32_intCast n hlo hhi]
  refine ⟨heq, fun a b ha hb => ?_⟩
  rw [heq, hb] at ha
  have : a = b := by
    injection ha with hv
    exact hv.symm
  rw [this, sub_self, abs_zero]
  norm_num

/-- Witness for C2 at `n = 1`, `x = 0`, fuel 0: the two paths return the
same value (here `some 0`), so the real parts differ by less than 1e-4. -/
theorem jf_integer_fallback_witness :
    jf 0 0 ((1 : ℤ) : ℝ) = j 0 0 1 ∧ |(0 : ℂ).re - (0 : ℂ).re| < 1e-4 := by
  have H := (jf_integer_fallback 0 0).2 1 (by decide) (by decide)
  have hj : j 0 0 1 = some 0 := j_zero_of_ne 0 1 (by decide)
  exact ⟨H.1, H.2 0 0 (by rw [H.1, hj]) hj⟩

/-- Claim C10: `jf`'s integer fallback converts the order with a saturating
float-to-`i32` cast, so for the integer-valued order `2^31` (outside the
`i32` range) it computes `j` at order `2^31 - 1`, which is not the order
that was requested. -/
theorem jf_saturating_cast_order (fuel : ℕ) (x : ℂ) :
    jf fuel x ((2 : ℝ) ^ 31) = j fuel x (2 ^ 31 - 1) ∧
    ((2 ^ 31 - 1 : ℤ) : ℝ) ≠ (2 : ℝ) ^ 31 := by
  have hcast : ((2 : ℝ) ^ 31) = ((2 ^ 31 : ℤ) : ℝ) := by push_cast; ring
  constructor
  · simp only [jf]
    rw [hcast, if_pos (fract_intCast _)]
    congr 1
    unfold f64toI32
    rw [rustTrunc_intCast]
    rw [min_eq_left (by norm_num), max_eq_right (by norm_num)]
  · rw [hcast]
    intro hc
    have : (2 ^ 31 - 1 : ℤ) = 2 ^ 31 := by exact_mod_cast hc
    omega

/-- Modelled from the spec: the real gamma function collaborator "accepts
any real argument not a non-positive integer" (spec section 6); this
predicate is that assigned domain.  (The gamma implementation itself lives
outside the Bessel module.) -/
def gammaSpecDomain (r : ℝ) : Prop := ¬ ∃ m : ℕ, r = -(m : ℝ)

/-- Claim C9: the `i` evaluator has no integer-order fallback: even at an
order equal to a negative integer `-m` (whose fractional part is zero, so
a fallback guard would have fired) it runs the gamma-based series directly,
with the second denominator accumulator initialised to `gamma(order + 1)`
— a non-positive integer argument, outside the domain the spec assigns to
the gamma collaborator. -/
theorem i_no_integer_fallback (fuel : ℕ) (x : ℂ) (m : ℕ) (hm : 0 < m) :
    fract (-(m : ℝ)) = 0 ∧
    i fuel x (-(m : ℝ)) =
      (let x2 : ℂ := x / 2
       let d2 : ℝ := Real.Gamma (-(m : ℝ) + 1)
       let term : ℂ := x2 ^ (((-(m : ℝ)) : ℝ) : ℂ) / (d2 : ℂ)
       if |Complex.abs term| < PRECISION_CONVERGENCE then some 0
       else iLoop x2 (-(m : ℝ)) fuel 0 1 d2 term 0) ∧
    ¬ gammaSpecDomain (-(m : ℝ) + 1) := by
  refine ⟨?_, rfl, ?_⟩
  · have hc : (-(m : ℝ)) = ((-(m : ℤ) : ℤ) : ℝ) := by push_cast; ring
    rw [hc]
    exact fract_intCast _
  · unfold gammaSpecDomain
    intro hc
    refine hc ⟨m - 1, ?_⟩
    push_cast [Nat.cast_sub hm]
    ring

/-- Witness for C9 at `m = 1`, `x = 0`, fuel 0. -/
theorem i_no_integer_fallback_witness :
    fract (-((1 : ℕ) : ℝ)) = 0 ∧
    i 0 0 (-((1 : ℕ) : ℝ)) =
      (let x2 : ℂ := (0 : ℂ) / 2
       let d2 : ℝ := Real.Gamma (-((1 : ℕ) : ℝ) + 1)
       let term : ℂ := x2 ^ (((-((1 : ℕ) : ℝ)) : ℝ) : ℂ) / (d2 : ℂ)
       if |Complex.abs term| < PRECISION_CONVERGENCE then some 0
       else iLoop x2 (-((1 : ℕ) : ℝ)) 0 0 1 d2 term 0) ∧
    ¬ gammaSpecDomain (-((1 : ℕ) : ℝ) + 1) :=
  i_no_integer_fallback 0 0 1 (by decide)

/-- Claim C4: for every argument and every order with nonzero fractional
part, `y(x, n)` is `(cos(nπ)·jf(x,n) − jf(x,−n)) / sin(nπ)`; for every
order with zero fractional part, `y(x, n)` is the average of the two
values of `y` at the shifted orders `n ± DISTANCE_Y_LIM`. -/
theorem y_two_branches (fuel : ℕ) (x : ℂ) (n : ℝ) :
    (fract n ≠ 0 → ∀ a b : ℂ, jf fuel x n = some a → jf fuel x (-n) = some b →
      y fuel x n = some ((((Real.cos (n * PI) : ℝ) : ℂ) * a - b) /
        ((Real.sin (n * PI) : ℝ) : ℂ))) ∧
    (fract n = 0 → ∀ a b : ℂ, y fuel x (n + DISTANCE_Y_LIM) = some a →
      y fuel x (n - DISTANCE_Y_LIM) = some b →
      y fuel x n = some ((a + b) / 2)) := by
  constructor
  · intro h a b ha hb
    rw [y_frac_branch fuel x n h, ha, hb]
    rfl
  · intro h a b ha hb
    rw [y_int_branch fuel x n h, ha, hb]
    rfl

/-- Witness for C4 at `x = 0`, fuel 0: the non-integer branch at order
`1/2` and the integer branch at order `0`. -/
theorem y_two_branches_witness :
    y 0 0 (1 / 2 : ℝ) = some ((((Real.cos ((1 / 2 : ℝ) * PI) : ℝ) : ℂ) * 0 - 0) /
      ((Real.sin ((1 / 2 : ℝ) * PI) : ℝ) : ℂ)) ∧
    y 0 0 (0 : ℝ) = some (((0 : ℂ) + 0) / 2) := by
  have hf : fract (1 / 2 : ℝ) ≠ 0 :=
    fract_ne_zero_of_unit _ (by norm_num) (by norm_num)
  have hfm : fract (-(1 / 2) : ℝ) ≠ 0 := fun hc =>
    hf ((fract_neg_eq_zero_iff _).mp hc)
  have hprt : (0 : ℝ) + DISTANCE_Y_LIM = 1 / 1000 := by
    rw [dylim_eq]; ring
  have hmrt : (0 : ℝ) - DISTANCE_Y_LIM = -(1 / 1000) := by
    rw [dylim_eq]; ring
  have hmilli : fract (1 / 1000 : ℝ) ≠ 0 :=
    fract_ne_zero_of_unit _ (by norm_num) (by norm_num)
  have hmillim : fract (-(1 / 1000) : ℝ) ≠ 0 := fun hc =>
    hmilli ((fract_neg_eq_zero_iff _).mp hc)
  constructor
  · exact (y_two_branches 0 0 (1 / 2)).1 hf 0 0
      (jf_zero_of 0 (1 / 2) hf (by norm_num))
      (jf_zero_of 0 (-(1 / 2)) hfm (by norm_num))
  · refine (y_two_branches 0 0 0).2 fract_zero 0 0 ?_ ?_
    · rw [hprt]
      exact y_zero_of 0 (1 / 1000) hmilli (by norm_num)
    · rw [hmrt]
      exact y_zero_of 0 (-(1 / 1000)) hmillim (by norm_num)

/-- Claim C5: for every argument and every order with nonzero fractional
part, `k(x, n)` is `(π/2 / sin(nπ)) · (i(x,−n) − i(x,n))`; for every order
with zero fractional part, `k(x, n)` is the average of the two values of
`k` at the shifted orders `n ± DISTANCE_Y_LIM`. -/
theorem k_two_branches (fuel : ℕ) (x : ℂ) (n : ℝ) :
    (fract n ≠ 0 → ∀ a b : ℂ, i fuel x (-n) = some a → i fuel x n = some b →
      k fuel x n = some (((FRAC_PI_2 / Real.sin (n * PI) : ℝ) : ℂ) * (a - b))) ∧
    (fract n = 0 → ∀ a b : ℂ, k fuel x (n + DISTANCE_Y_LIM) = some a →
      k fuel x (n - DISTANCE_Y_LIM) = some b →
      k fuel x n = some ((a + b) / 2)) := by
  constructor
  · intro h a b ha hb
    rw [k_frac_branch fuel x n h, ha, hb]
    rfl
  · intro h a b ha hb
    rw [k_int_branch fuel x n h, ha, hb]
    rfl

/-- Witness for C5 at `x = 0`, fuel 0: the non-integer branch at order
`1/2` and the integer branch at order `0`. -/
theorem k_two_branches_witness :
    k 0 0 (1 / 2 : ℝ) =
      some (((FRAC_PI_2 / Real.sin ((1 / 2 : ℝ) * PI) : ℝ) : ℂ) * (0 - 0)) ∧
    k 0 0 (0 : ℝ) = some (((0 : ℂ) + 0) / 2) := by
  have hf : fract (1 / 2 : ℝ) ≠ 0 :=
    fract_ne_zero_of_unit _ (by norm_num) (by norm_num)
  have hprt : (0 : ℝ) + DISTANCE_Y_LIM = 1 / 1000 := by
    rw [dylim_eq]; ring
  have hmrt : (0 : ℝ) - DISTANCE_Y_LIM = -(1 / 1000) := by
    rw [dylim_eq]; ring
  have hmilli : fract (1 / 1000 : ℝ) ≠ 0 :=
    fract_ne_zero_of_unit _ (by norm_num) (by norm_num)
  have hmillim : fract (-(1 / 1000) : ℝ) ≠ 0 := fun hc =>
    hmilli ((fract_neg_eq_zero_iff _).mp hc)
  constructor
  · exact (k_two_branches 0 0 (1 / 2)).1 hf 0 0
      (i_zero_of 0 (-(1 / 2)) (by norm_num))
      (i_zero_of 0 (1 / 2) (by norm_num))
  · refine (k_two_branches 0 0 0).2 fract_zero 0 0 ?_ ?_
    · rw [hprt]
      exact k_zero_of 0 (1 / 1000) hmilli (by norm_num)
    · rw [hmrt]
      exact k_zero_of 0 (-(1 / 1000)) hmillim (by norm_num)

/-- Claim C3: for every argument and every order `n` with zero fractional
part, the recursive calls of `y` (and likewise of `k`) at the shifted
orders `n ± DISTANCE_Y_LIM` always take the non-integer branch: one level
of unfolding already eliminates every recursive occurrence, leaving only
the series evaluators `jf` (resp. `i`), so the recursion depth is exactly
one and the derivations are total (the embedded `y` and `k` are defined by
well-founded recursion on exactly this fact). -/
theorem yk_recursion_depth_one (fuel : ℕ) (x : ℂ) (n : ℝ) (h : fract n = 0) :
    fract (n + DISTANCE_Y_LIM) ≠ 0 ∧ fract (n - DISTANCE_Y_LIM) ≠ 0 ∧
    y fuel x n =
      ((jf fuel x (n + DISTANCE_Y_LIM)).bind fun a =>
        (jf fuel x (-(n + DISTANCE_Y_LIM))).bind fun b =>
          some ((((Real.cos ((n + DISTANCE_Y_LIM) * PI) : ℝ) : ℂ) * a - b) /
            ((Real.sin ((n + DISTANCE_Y_LIM) * PI) : ℝ) : ℂ))).bind (fun a =>
      ((jf fuel x (n - DISTANCE_Y_LIM)).bind fun a' =>
        (jf fuel x (-(n - DISTANCE_Y_LIM))).bind fun b =>
          some ((((Real.cos ((n - DISTANCE_Y_LIM) * PI) : ℝ) : ℂ) * a' - b) /
            ((Real.sin ((n - DISTANCE_Y_LIM) * PI) : ℝ) : ℂ))).bind (fun b =>
        some ((a + b) / 2))) ∧
    k fuel x n =
      ((i fuel x (-(n + DISTANCE_Y_LIM))).bind fun a =>
        (i fuel x (n + DISTANCE_Y_LIM)).bind fun b =>
          some (((FRAC_PI_2 / Real.sin ((n + DISTANCE_Y_LIM) * PI) : ℝ) : ℂ) *
            (a - b))).bind (fun a =>
      ((i fuel x (-(n - DISTANCE_Y_LIM))).bind fun a' =>
        (i fuel x (n - DISTANCE_Y_LIM)).bind fun b =>
          some (((FRAC_PI_2 / Real.sin ((n - DISTANCE_Y_LIM) * PI) : ℝ) : ℂ) *
            (a' - b))).bind (fun b =>
        some ((a + b) / 2))) := by
  have h1 := fract_add_dylim_ne n h
  have h2 := fract_sub_dylim_ne n h
  refine ⟨h1, h2, ?_, ?_⟩
  · rw [y_int_branch fuel x n h]
    simp only [y_frac_branch fuel x (n + DISTANCE_Y_LIM) h1,
      y_frac_branch fuel x (n - DISTANCE_Y_LIM) h2]
  · rw [k_int_branch fuel x n h]
    simp only [k_frac_branch fuel x (n + DISTANCE_Y_LIM) h1,
      k_frac_branch fuel x (n - DISTANCE_Y_LIM) h2]

/-- Witness for C3 at `x = 0`, `n = 0`, fuel 0. -/
theorem yk_recursion_depth_one_witness :
    fract ((0 : ℝ) + DISTANCE_Y_LIM) ≠ 0 ∧ fract ((0 : ℝ) - DISTANCE_Y_LIM) ≠ 0 ∧
    y 0 0 (0 : ℝ) =
      ((jf 0 0 ((0 : ℝ) + DISTANCE_Y_LIM)).bind fun a =>
        (jf 0 0 (-((0 : ℝ) + DISTANCE_Y_LIM))).bind fun b =>
          some ((((Real.cos (((0 : ℝ) + DISTANCE_Y_LIM) * PI) : ℝ) : ℂ) * a - b) /
            ((Real.sin (((0 : ℝ) + DISTANCE_Y_LIM) * PI) : ℝ) : ℂ))).bind (fun a =>
      ((jf 0 0 ((0 : ℝ) - DISTANCE_Y_LIM)).bind fun a' =>
        (jf 0 0 (-((0 : ℝ) - DISTANCE_Y_LIM))).bind fun b =>
          some ((((Real.cos (((0 : ℝ) - DISTANCE_Y_LIM) * PI) : ℝ) : ℂ) * a' - b) /
            ((Real.sin (((0 : ℝ) - DISTANCE_Y_LIM) * PI) : ℝ) : ℂ))).bind (fun b =>
        some ((a + b) / 2))) ∧
    k 0 0 (0 : ℝ) =
      ((i 0 0 (-((0 : ℝ) + DISTANCE_Y_LIM))).bind fun a =>
        (i 0 0 ((0 : ℝ) + DISTANCE_Y_LIM)).bind fun b =>
          some (((FRAC_PI_2 / Real.sin (((0 : ℝ) + DISTANCE_Y_LIM) * PI) : ℝ) : ℂ) *
            (a - b))).bind (fun a =>
      ((i 0 0 (-((0 : ℝ) - DISTANCE_Y_LIM))).bind fun a' =>
        (i 0 0 ((0 : ℝ) - DISTANCE_Y_LIM)).bind fun b =>
          some (((FRAC_PI_2 / Real.sin (((0 : ℝ) - DISTANCE_Y_LIM) * PI) : ℝ) : ℂ) *
            (a' - b))).bind (fun b =>
        some ((a + b) / 2))) :=
  yk_recursion_depth_one 0 0 0 fract_zero

/-- Claim C6: for every argument, order, fuel budget and produced values
`a = jf(x,n)`, `b = y(x,n)`, the Hankel functions compose exactly as
`hankel_first = a + i·b` and `hankel_second = a − i·b`; consequently their
sum is exactly `2·jf(x,n)` and their difference exactly `2i·y(x,n)`, hence
within the claimed tolerance `1e-5`. -/
theorem hankel_decomposition (fuel : ℕ) (x : ℂ) (n : ℝ) (a b : ℂ)
    (hj : jf fuel x n = some a) (hy : y fuel x n = some b) :
    hankel_first fuel x n = some (a + Complex.I * b) ∧
    hankel_second fuel x n = some (a - Complex.I * b) ∧
    (a + Complex.I * b) + (a - Complex.I * b) = 2 * a ∧
    (a + Complex.I * b) - (a - Complex.I * b) = 2 * Complex.I * b ∧
    Complex.abs (((a + Complex.I * b) + (a - Complex.I * b)) - 2 * a) < 1e-5 ∧
    Complex.abs (((a + Complex.I * b) - (a - Complex.I * b)) - 2 * Complex.I * b)
      < 1e-5 := by
  have hsum : (a + Complex.I * b) + (a - Complex.I * b) = 2 * a := by ring
  have hdiff : (a + Complex.I * b) - (a - Complex.I * b) = 2 * Complex.I * b := by
    ring
  refine ⟨?_, ?_, hsum, hdiff, ?_, ?_⟩
  · simp only [hankel_first]
    rw [hj, hy]
    rfl
  · simp only [hankel_second]
    rw [hj, hy]
    rfl
  · rw [hsum, sub_self, map_zero]
    norm_num
  · rw [hdiff, sub_self, map_zero]
    norm_num

/-- Witness for C6 at `x = 0`, `n = 1/2`, fuel 0, where both underlying
calls return `some 0`. -/
theorem hankel_decomposition_witness :
    hankel_first 0 0 (1 / 2 : ℝ) = some ((0 : ℂ) + Complex.I * 0) ∧
    hankel_second 0 0 (1 / 2 : ℝ) = some ((0 : ℂ) - Complex.I * 0) ∧
    ((0 : ℂ) + Complex.I * 0) + ((0 : ℂ) - Complex.I * 0) = 2 * 0 ∧
    ((0 : ℂ) + Complex.I * 0) - ((0 : ℂ) - Complex.I * 0) = 2 * Complex.I * 0 ∧
    Complex.abs ((((0 : ℂ) + Complex.I * 0) + ((0 : ℂ) - Complex.I * 0)) - 2 * 0)
      < 1e-5 ∧
    Complex.abs ((((0 : ℂ) + Complex.I * 0) - ((0 : ℂ) - Complex.I * 0)) -
      2 * Complex.I * 0) < 1e-5 := by
  have hf : fract (1 / 2 : ℝ) ≠ 0 :=
    fract_ne_zero_of_unit _ (by norm_num) (by norm_num)
  exact hankel_decomposition 0 0 (1 / 2) 0 0
    (jf_zero_of 0 (1 / 2) hf (by norm_num))
    (y_zero_of 0 (1 / 2) hf (by norm_num))

end Bessel
